import Mathlib

/-!
Verification of the n-gram language model in `src/ngram_model.py` and the
Gutenberg boilerplate stripper in `src/utils.py`, via a shallow embedding.

Conventions of the embedding:
* Python strings are Lean `String` / `List Char`; the tokenizer's `\w`
  character class is modelled for ASCII input (alphanumeric or underscore),
  matching Python's behaviour on the ASCII corpora of the specification.
* Python `dict` tables (which preserve insertion order, and in which
  `defaultdict` appends missing keys at the end) are association lists.
* The shared pseudo-random source (`random.uniform`) is modelled by an
  explicit generator state `σ` with a step function `σ → ℚ × σ` producing
  the unit draw `u`; `random.uniform(0, total)` is `u * total`.  Rationals
  stand in for Python floats; the draw is threaded through generation
  exactly where the Python code consumes randomness.
-/

attribute [local semireducible] Rat.add Rat.mul

/-! ### Reserved tokens (`TrigramModel.START_TOKEN` etc.) -/

def START_TOKEN : String := "<s>"

def END_TOKEN : String := "</s>"

def UNK_TOKEN : String := "<unk>"

/-! ### Character classes and Python string helpers -/

/-- `\w` for ASCII input: alphanumeric or underscore. -/
def isWordChar (c : Char) : Bool := c.isAlphanum || c = '_'

/-- A sentence delimiter, the character class `[.!?]` of `re.split`. -/
def isSentDelim (c : Char) : Bool := c = '.' || c = '!' || c = '?'

/-- ASCII whitespace stripped by Python `str.strip()`. -/
def isPySpace (c : Char) : Bool :=
  c = ' ' || c = '\t' || c = '\n' || c = '\r' || c = '\x0b' || c = '\x0c'

/-- Python `str.strip()`: drop whitespace from both ends. -/
def pyStrip (cs : List Char) : List Char :=
  ((cs.dropWhile isPySpace).reverse.dropWhile isPySpace).reverse

/-- Worker for `re.split(r"[.!?]+", s)`.  The second argument is `some acc`
while collecting the current segment (in reverse) and `none` while inside a
run of delimiters, so that a run of delimiters acts as a single split point. -/
def splitDelimGo : List Char → Option (List Char) → List (List Char)
  | [], some acc => [acc.reverse]
  | [], none => [[]]
  | c :: rest, some acc =>
    if isSentDelim c then acc.reverse :: splitDelimGo rest none
    else splitDelimGo rest (some (c :: acc))
  | c :: rest, none =>
    if isSentDelim c then splitDelimGo rest none
    else splitDelimGo rest (some [c])

/-- `re.split(r"[.!?]+", s)`: split on runs of sentence delimiters. -/
def splitDelim (cs : List Char) : List (List Char) := splitDelimGo cs (some [])

/-- Worker for `re.findall(r"\b\w+\b", s)`: `acc` holds the word run being
collected, in reverse. -/
def wordTokensAux : List Char → List Char → List (List Char)
  | [], acc => if acc.isEmpty then [] else [acc.reverse]
  | c :: rest, acc =>
    if isWordChar c then wordTokensAux rest (c :: acc)
    else if acc.isEmpty then wordTokensAux rest acc
    else acc.reverse :: wordTokensAux rest []

/-- `re.findall(r"\b\w+\b", s)`: the maximal runs of word characters. -/
def wordTokens (cs : List Char) : List (List Char) := wordTokensAux cs []

/-! ### Association-list operations standing in for Python dicts -/

/-- A context key: the tuple of `n - 1` tokens preceding the target. -/
abbrev Ctx := List String

/-- Inner table of `self.counts`: next token → occurrence count. -/
abbrev InnerCounts := List (String × Nat)

/-- `self.counts`: context → next token → occurrence count. -/
abbrev CountsTable := List (Ctx × InnerCounts)

/-- `self.context_totals`: context → total count. -/
abbrev TotalsTable := List (Ctx × Nat)

/-- Dictionary lookup. -/
def alGet {α β : Type} [DecidableEq α] (k : α) : List (α × β) → Option β
  | [] => none
  | p :: rest => if p.1 = k then some p.2 else alGet k rest

/-- `inner[target] += 1` on a `defaultdict(int)`: a missing key is appended
with count 1. -/
def bumpTok (target : String) : InnerCounts → InnerCounts
  | [] => [(target, 1)]
  | p :: rest =>
    if p.1 = target then (p.1, p.2 + 1) :: rest else p :: bumpTok target rest

/-- `self.counts[context][target] += 1`: a missing context is appended. -/
def bumpCounts (context : Ctx) (target : String) : CountsTable → CountsTable
  | [] => [(context, [(target, 1)])]
  | p :: rest =>
    if p.1 = context then (p.1, bumpTok target p.2) :: rest
    else p :: bumpCounts context target rest

/-- `self.context_totals[context] += 1`: a missing context is appended. -/
def bumpTotal (context : Ctx) : TotalsTable → TotalsTable
  | [] => [(context, 1)]
  | p :: rest =>
    if p.1 = context then (p.1, p.2 + 1) :: rest else p :: bumpTotal context rest

/-- `sum(context_counts.values())`. -/
def sumCounts (cc : InnerCounts) : Nat := (cc.map Prod.snd).sum

/-! ### The model -/

/-- The state of a `TrigramModel` instance. -/
structure TrigramModel where
  n : Nat
  min_count : Nat
  counts : CountsTable
  context_totals : TotalsTable
  vocab : List String
  trained : Bool
  deriving DecidableEq, Repr

/-- The field values set by `__init__` (after the `n >= 2` check passes). -/
def initModel (n : Nat) (min_count : Nat) : TrigramModel :=
  { n := n
    min_count := min_count
    counts := []
    context_totals := []
    vocab := [UNK_TOKEN, END_TOKEN, START_TOKEN]
    trained := false }

/-- `TrigramModel.__init__`: raises `ValueError` when `n < 2`, modelled by
`none`. -/
def mkTrigramModel (n : Nat) (min_count : Nat) : Option TrigramModel :=
  if n < 2 then none else some (initModel n min_count)

/-- `TrigramModel._reset_model_state`. -/
def reset_model_state (m : TrigramModel) : TrigramModel :=
  { m with
    counts := []
    context_totals := []
    vocab := [START_TOKEN, END_TOKEN, UNK_TOKEN]
    trained := false }

/-- `TrigramModel._prepare_sentences`: lowercase, split into sentences on
runs of `.!?`, tokenize each sentence, and keep the non-empty ones. -/
def prepare_sentences (text : String) : List (List String) :=
  let lowered := text.data.map Char.toLower
  let sentences := splitDelim lowered
  (sentences.map (fun s => (wordTokens s).map (fun w => String.mk w))).filter
    (fun tokens => !tokens.isEmpty)

/-- `TrigramModel._build_vocabulary`: tokens reaching `min_count`, falling
back to all observed tokens when that set is empty, together with the
reserved tokens.  A Python `set` is used only through membership, which the
list models. -/
def build_vocabulary (min_count : Nat) (sentences : List (List String)) :
    List String :=
  let flat_tokens := sentences.flatten
  let distinct := flat_tokens.dedup
  let kept := distinct.filter (fun t => min_count ≤ flat_tokens.count t)
  let vocab := if kept.isEmpty then distinct else kept
  vocab ++ [START_TOKEN, END_TOKEN, UNK_TOKEN]

/-- `TrigramModel._normalize_sentence`: fold out-of-vocabulary tokens to the
unknown marker. -/
def normalize_sentence (vocab : List String) (sentence : List String) :
    List String :=
  sentence.map (fun token => if token ∈ vocab then token else UNK_TOKEN)

/-- The `(context, target)` pairs of the sliding window of
`TrigramModel._update_counts`: for each `idx` in
`range(len(tokens) - (n - 1))`, the context `tokens[idx : idx + n - 1]` and
the target `tokens[idx + n - 1]`. -/
def ngramWindows (n : Nat) : List String → List (Ctx × String)
  | [] => []
  | t :: ts =>
    if n ≤ (t :: ts).length then
      ((t :: ts).take (n - 1), (t :: ts).getD (n - 1) "") :: ngramWindows n ts
    else []

/-- One loop iteration of `TrigramModel._update_counts`: increment both
tables for a window. -/
def applyWindow (st : CountsTable × TotalsTable) (w : Ctx × String) :
    CountsTable × TotalsTable :=
  (bumpCounts w.1 w.2 st.1, bumpTotal w.1 st.2)

/-- `TrigramModel._update_counts`. -/
def update_counts (n : Nat) (tokens : List String)
    (st : CountsTable × TotalsTable) : CountsTable × TotalsTable :=
  (ngramWindows n tokens).foldl applyWindow st

/-- The padded token list of `TrigramModel.fit`: `n - 1` start markers, the
normalized sentence, one end marker. -/
def padSentence (n : Nat) (vocab : List String) (sentence : List String) :
    List String :=
  List.replicate (n - 1) START_TOKEN ++ normalize_sentence vocab sentence
    ++ [END_TOKEN]

/-- The counting phase of `TrigramModel.fit`: build the vocabulary, then
normalize, pad and count every sentence. -/
def fitCount (m : TrigramModel) (sentences : List (List String)) :
    TrigramModel :=
  let vocab := build_vocabulary m.min_count sentences
  let st := sentences.foldl
    (fun st sentence => update_counts m.n (padSentence m.n vocab sentence) st)
    (m.counts, m.context_totals)
  { m with
    vocab := vocab
    counts := st.1
    context_totals := st.2
    trained := true }

/-- The body of `TrigramModel.fit` after the initial strip and reset (`m` is
the freshly reset model, `stripped` the stripped input). -/
def fitTrain (m : TrigramModel) (stripped : List Char) : TrigramModel :=
  if stripped.isEmpty then m
  else if (prepare_sentences (String.mk stripped)).isEmpty then m
  else fitCount m (prepare_sentences (String.mk stripped))

/-- `TrigramModel.fit`. -/
def fit (m : TrigramModel) (text : String) : TrigramModel :=
  fitTrain (reset_model_state m) (pyStrip text.data)

/-! ### Sampling and generation -/

/-- The canonical all-start-marker context of length `n - 1`. -/
def startContext (n : Nat) : Ctx := List.replicate (n - 1) START_TOKEN

/-- `self.context_totals.get(context, sum(context_counts.values()))`. -/
def sampleTotal (m : TrigramModel) (context : Ctx)
    (context_counts : InnerCounts) : Nat :=
  (alGet context m.context_totals).getD (sumCounts context_counts)

/-- The cumulative walk of `TrigramModel._sample_next_word`: return the
first token whose cumulative count reaches the threshold, else the end
marker. -/
def walkCumulative : InnerCounts → ℚ → ℚ → String
  | [], _, _ => END_TOKEN
  | p :: rest, cumulative, threshold =>
    if threshold ≤ cumulative + (p.2 : ℚ) then p.1
    else walkCumulative rest (cumulative + (p.2 : ℚ)) threshold

/-- The tail of `TrigramModel._sample_next_word` once a present context has
been selected: zero-total guard, then draw `uniform(0, total)` and walk. -/
def sampleFromCounts {σ : Type} (step : σ → ℚ × σ) (m : TrigramModel)
    (context : Ctx) (context_counts : InnerCounts) (s : σ) : String × σ :=
  let total := sampleTotal m context context_counts
  if total = 0 then (END_TOKEN, s)
  else
    let us := step s
    (walkCumulative context_counts 0 (us.1 * (total : ℚ)), us.2)

/-- `TrigramModel._sample_next_word`, with the random source threaded
explicitly. -/
def sample_next_word {σ : Type} (step : σ → ℚ × σ) (m : TrigramModel)
    (context : Ctx) (s : σ) : String × σ :=
  match alGet context m.counts with
  | some context_counts => sampleFromCounts step m context context_counts s
  | none =>
    match alGet (startContext m.n) m.counts with
    | some context_counts =>
      sampleFromCounts step m (startContext m.n) context_counts s
    | none => (END_TOKEN, s)

/-- The generation loop of `TrigramModel.generate`: up to `fuel` iterations,
sample, stop at the end marker, otherwise append and advance the context. -/
def genLoop {σ : Type} (step : σ → ℚ × σ) (m : TrigramModel) :
    Ctx → Nat → σ → List String × σ
  | _, 0, s => ([], s)
  | context, fuel + 1, s =>
    let ws := sample_next_word step m context s
    if ws.1 = END_TOKEN then ([], ws.2)
    else
      let rest := genLoop step m (context.tail ++ [ws.1]) fuel ws.2
      (ws.1 :: rest.1, rest.2)

/-- `TrigramModel.generate`: returns the space-joined output together with
the advanced state of the shared random source. -/
def generate {σ : Type} (step : σ → ℚ × σ) (m : TrigramModel)
    (max_length : Nat) (s : σ) : String × σ :=
  if !m.trained || m.counts.isEmpty then ("", s)
  else
    let out := genLoop step m (startContext m.n) max_length s
    (String.intercalate " " out.1, out.2)

/-- A generation call on a world holding the model instance and the shared
random source: the output, the instance as left by the call, and the
advanced source.  `generate` only reads the tables, so the instance
component is returned unchanged. -/
def generateWorld {σ : Type} (step : σ → ℚ × σ) (w : TrigramModel × σ)
    (max_length : Nat) : String × (TrigramModel × σ) :=
  let out := generate step w.1 max_length w.2
  (out.1, (w.1, out.2))

/-- A degenerate random source for concrete evaluations: always draws 0. -/
def stepZero : Unit → ℚ × Unit := fun _ => (0, ())

/-! ### `utils.strip_gutenberg_header_footer` -/

def START_FLAG : String := "*** START OF THE PROJECT GUTENBERG EBOOK"

def END_FLAG : String := "*** END OF THE PROJECT GUTENBERG EBOOK"

/-- Does `pat` occur at the head of the list? -/
def patAt : List Char → List Char → Bool
  | [], _ => true
  | _ :: _, [] => false
  | p :: ps, c :: cs => p = c && patAt ps cs

/-- Python `str.find(pat)`: index of the first occurrence, `none` for -1. -/
def findSub (pat : List Char) : List Char → Option Nat
  | [] => if pat.isEmpty then some 0 else none
  | c :: cs =>
    if patAt pat (c :: cs) then some 0 else (findSub pat cs).map (· + 1)

/-- Index of the first occurrence of a character. -/
def findCharIdx (ch : Char) : List Char → Option Nat
  | [] => none
  | c :: cs => if c = ch then some 0 else (findCharIdx ch cs).map (· + 1)

/-- Python `str.find(ch, start)`: first occurrence at index ≥ `start`. -/
def findCharFrom (ch : Char) (cs : List Char) (start : Nat) : Option Nat :=
  (findCharIdx ch (cs.drop start)).map (· + start)

/-- Normalize one bound of a Python slice `s[a:b]`: negative indices count
from the end (clamped at 0), large indices clamp at the length. -/
def pySliceIdx (len : Nat) (i : Int) : Nat :=
  if i < 0 then ((len : Int) + i).toNat else min i.toNat len

/-- Python slice `s[a:b]`. -/
def pySlice (cs : List Char) (a b : Int) : List Char :=
  (cs.take (pySliceIdx cs.length b)).drop (pySliceIdx cs.length a)

/-- The `start_idx` computed by `strip_gutenberg_header_footer`: first
newline at or after the start flag when the flag is present (Python's -1
when there is none), otherwise 0. -/
def gutenbergStartIdx (lower : List Char) : Int :=
  match findSub (START_FLAG.data.map Char.toLower) lower with
  | some i =>
    match findCharFrom '\n' lower i with
    | some j => (j : Int)
    | none => -1
  | none => 0

/-- The `end_idx` computed by `strip_gutenberg_header_footer`: index of the
end flag, or the text length when absent. -/
def gutenbergEndIdx (lower : List Char) (len : Nat) : Int :=
  match findSub (END_FLAG.data.map Char.toLower) lower with
  | some i => (i : Int)
  | none => (len : Int)

/-- `utils.strip_gutenberg_header_footer`. -/
def strip_gutenberg_header_footer (raw_text : String) : String :=
  if raw_text = "" then ""
  else
    let lower := raw_text.data.map Char.toLower
    let start_idx := gutenbergStartIdx lower
    let end_idx := gutenbergEndIdx lower raw_text.data.length
    String.mk (pyStrip (pySlice raw_text.data start_idx end_idx))


/-! ### Helper lemmas: association-list updates -/

theorem alGet_bumpTok_shape (target : String) (cc : InnerCounts) :
    ∀ p ∈ bumpTok target cc, p.1 = target ∨ ∃ q ∈ cc, p.1 = q.1 := by
  induction cc with
  | nil =>
    intro p hp
    simp only [bumpTok, List.mem_singleton] at hp
    exact Or.inl (by rw [hp])
  | cons q rest ih =>
    intro p hp
    by_cases hq : q.1 = target
    · rw [bumpTok, if_pos hq] at hp
      rcases List.mem_cons.mp hp with hp' | hp'
      · exact Or.inl (by rw [hp']; exact hq)
      · exact Or.inr ⟨p, List.mem_cons_of_mem _ hp', rfl⟩
    · rw [bumpTok, if_neg hq] at hp
      rcases List.mem_cons.mp hp with hp' | hp'
      · exact Or.inr ⟨q, List.mem_cons_self _ _, by rw [hp']⟩
      · rcases ih p hp' with h | ⟨r, hr, hr1⟩
        · exact Or.inl h
        · exact Or.inr ⟨r, List.mem_cons_of_mem _ hr, hr1⟩

theorem sumCounts_bumpTok (target : String) (cc : InnerCounts) :
    sumCounts (bumpTok target cc) = sumCounts cc + 1 := by
  induction cc with
  | nil => simp [bumpTok, sumCounts]
  | cons q rest ih =>
    by_cases hq : q.1 = target
    · simp only [bumpTok, if_pos hq, sumCounts, List.map_cons, List.sum_cons]
      simp only [sumCounts] at ih ⊢
      omega
    · simp only [bumpTok, if_neg hq, sumCounts, List.map_cons, List.sum_cons]
      simp only [sumCounts] at ih
      omega

theorem bumpTok_ne_nil (target : String) (cc : InnerCounts) :
    bumpTok target cc ≠ [] := by
  cases cc with
  | nil => simp [bumpTok]
  | cons q rest =>
    by_cases hq : q.1 = target <;> simp [bumpTok, hq]

theorem bumpTok_pos (target : String) (cc : InnerCounts)
    (h : ∀ p ∈ cc, 1 ≤ p.2) : ∀ p ∈ bumpTok target cc, 1 ≤ p.2 := by
  induction cc with
  | nil =>
    intro p hp
    simp only [bumpTok, List.mem_singleton] at hp
    simp [hp]
  | cons q rest ih =>
    intro p hp
    by_cases hq : q.1 = target
    · rw [bumpTok, if_pos hq] at hp
      rcases List.mem_cons.mp hp with hp' | hp'
      · have := h q (List.mem_cons_self _ _)
        rw [hp']
        omega
      · exact h p (List.mem_cons_of_mem _ hp')
    · rw [bumpTok, if_neg hq] at hp
      rcases List.mem_cons.mp hp with hp' | hp'
      · exact h p (by rw [hp']; exact List.mem_cons_self _ _)
      · exact ih (fun r hr => h r (List.mem_cons_of_mem _ hr)) p hp'

theorem alGet_bumpCounts_self (context : Ctx) (target : String)
    (cnts : CountsTable) :
    alGet context (bumpCounts context target cnts) =
      some (bumpTok target ((alGet context cnts).getD [])) := by
  induction cnts with
  | nil => simp [bumpCounts, alGet, bumpTok]
  | cons p rest ih =>
    by_cases hp : p.1 = context
    · simp only [bumpCounts, if_pos hp, alGet, Option.getD_some]
    · simp only [bumpCounts, if_neg hp, alGet, if_neg hp, ih]

theorem alGet_bumpCounts_ne (k context : Ctx) (target : String)
    (cnts : CountsTable) (hk : k ≠ context) :
    alGet k (bumpCounts context target cnts) = alGet k cnts := by
  have hck : ¬ context = k := fun h => hk h.symm
  induction cnts with
  | nil => simp [bumpCounts, alGet, hck]
  | cons p rest ih =>
    by_cases hp : p.1 = context
    · have h1 : ¬ p.1 = k := by rw [hp]; exact hck
      simp only [bumpCounts, if_pos hp, alGet, if_neg h1]
    · simp only [bumpCounts, if_neg hp, alGet, ih]

theorem alGet_bumpTotal_self (context : Ctx) (tots : TotalsTable) :
    alGet context (bumpTotal context tots) =
      some ((alGet context tots).getD 0 + 1) := by
  induction tots with
  | nil => simp [bumpTotal, alGet]
  | cons p rest ih =>
    by_cases hp : p.1 = context
    · simp only [bumpTotal, if_pos hp, alGet, Option.getD_some]
    · simp only [bumpTotal, if_neg hp, alGet, ih]

theorem alGet_bumpTotal_ne (k context : Ctx) (tots : TotalsTable)
    (hk : k ≠ context) :
    alGet k (bumpTotal context tots) = alGet k tots := by
  have hck : ¬ context = k := fun h => hk h.symm
  induction tots with
  | nil => simp [bumpTotal, alGet, hck]
  | cons p rest ih =>
    by_cases hp : p.1 = context
    · have h1 : ¬ p.1 = k := by rw [hp]; exact hck
      simp only [bumpTotal, if_pos hp, alGet, if_neg h1]
    · simp only [bumpTotal, if_neg hp, alGet, ih]

/-! ### The parallel-tables invariant -/

/-- The invariant maintained by `_update_counts`: each context present in
the transition table carries a non-empty inner table of positive counts,
and the context-total table records exactly the sum of those counts;
contexts absent from the transition table are absent from the totals. -/
def tablesConsistent (cnts : CountsTable) (tots : TotalsTable) : Prop :=
  (∀ context inner, alGet context cnts = some inner →
    alGet context tots = some (sumCounts inner) ∧ inner ≠ [] ∧
      ∀ p ∈ inner, 1 ≤ p.2)
  ∧ ∀ context, alGet context cnts = none → alGet context tots = none

theorem tablesConsistent_nil : tablesConsistent [] [] := by
  constructor
  · intro context inner h
    simp [alGet] at h
  · intro context _
    rfl

theorem tablesConsistent_applyWindow (st : CountsTable × TotalsTable)
    (w : Ctx × String) (h : tablesConsistent st.1 st.2) :
    tablesConsistent (applyWindow st w).1 (applyWindow st w).2 := by
  obtain ⟨h1, h2⟩ := h
  constructor
  · intro context inner hc
    simp only [applyWindow] at hc ⊢
    by_cases hk : context = w.1
    · rw [hk] at hc ⊢
      rw [alGet_bumpCounts_self] at hc
      rw [alGet_bumpTotal_self]
      injection hc with hc
      subst hc
      cases hold : alGet w.1 st.1 with
      | some old =>
        obtain ⟨ht, hne, hpos⟩ := h1 w.1 old hold
        rw [ht]
        simp only [Option.getD_some]
        exact ⟨by rw [sumCounts_bumpTok], bumpTok_ne_nil _ _,
          bumpTok_pos _ _ hpos⟩
      | none =>
        have ht := h2 w.1 hold
        rw [ht]
        simp only [Option.getD_none]
        refine ⟨by simp [bumpTok, sumCounts], bumpTok_ne_nil _ _,
          bumpTok_pos _ _ ?_⟩
        intro p hp
        simp at hp
    · rw [alGet_bumpCounts_ne _ _ _ _ hk] at hc
      rw [alGet_bumpTotal_ne _ _ _ hk]
      exact h1 context inner hc
  · intro context hc
    simp only [applyWindow] at hc ⊢
    by_cases hk : context = w.1
    · rw [hk, alGet_bumpCounts_self] at hc
      exact absurd hc (by simp)
    · rw [alGet_bumpCounts_ne _ _ _ _ hk] at hc
      rw [alGet_bumpTotal_ne _ _ _ hk]
      exact h2 context hc

theorem tablesConsistent_foldl_windows (ws : List (Ctx × String)) :
    ∀ st : CountsTable × TotalsTable, tablesConsistent st.1 st.2 →
      tablesConsistent (ws.foldl applyWindow st).1
        (ws.foldl applyWindow st).2 := by
  induction ws with
  | nil => intro st h; exact h
  | cons w rest ih =>
    intro st h
    exact ih (applyWindow st w) (tablesConsistent_applyWindow st w h)

theorem tablesConsistent_update_counts (n : Nat) (tokens : List String)
    (st : CountsTable × TotalsTable) (h : tablesConsistent st.1 st.2) :
    tablesConsistent (update_counts n tokens st).1
      (update_counts n tokens st).2 :=
  tablesConsistent_foldl_windows (ngramWindows n tokens) st h

theorem tablesConsistent_foldl_sentences (n : Nat) (vocab : List String)
    (sentences : List (List String)) :
    ∀ st : CountsTable × TotalsTable, tablesConsistent st.1 st.2 →
      tablesConsistent
        (sentences.foldl
          (fun st sentence => update_counts n (padSentence n vocab sentence) st)
          st).1
        (sentences.foldl
          (fun st sentence => update_counts n (padSentence n vocab sentence) st)
          st).2 := by
  induction sentences with
  | nil => intro st h; exact h
  | cons sentence rest ih =>
    intro st h
    exact ih _ (tablesConsistent_update_counts n _ st h)

theorem tablesConsistent_fit (m : TrigramModel) (text : String) :
    tablesConsistent (fit m text).counts (fit m text).context_totals := by
  rw [fit, fitTrain]
  split
  · exact tablesConsistent_nil
  · split
    · exact tablesConsistent_nil
    · exact tablesConsistent_foldl_sentences _ _ _ _ tablesConsistent_nil

/-! ### Structural facts about `fit` -/

theorem fitTrain_n (m : TrigramModel) (stripped : List Char) :
    (fitTrain m stripped).n = m.n := by
  rw [fitTrain]
  split
  · rfl
  · split
    · rfl
    · rfl

theorem fitTrain_min_count (m : TrigramModel) (stripped : List Char) :
    (fitTrain m stripped).min_count = m.min_count := by
  rw [fitTrain]
  split
  · rfl
  · split
    · rfl
    · rfl

theorem fit_n (m : TrigramModel) (t : String) : (fit m t).n = m.n :=
  fitTrain_n _ _

theorem fit_min_count (m : TrigramModel) (t : String) :
    (fit m t).min_count = m.min_count :=
  fitTrain_min_count _ _

theorem reset_model_state_congr (m1 m2 : TrigramModel) (hn : m1.n = m2.n)
    (hm : m1.min_count = m2.min_count) :
    reset_model_state m1 = reset_model_state m2 := by
  rw [reset_model_state, reset_model_state, hn, hm]

/-! ### Claim theorems: training invariants and scenarios -/

/-- C1: for every model and every text, after `fit` completes, every context
key present in the transition table has its next-token counts summing to
the context-total entry for that key. -/
theorem fit_counts_totals_consistent (m : TrigramModel) (text : String)
    (context : Ctx) (inner : InnerCounts)
    (h : alGet context (fit m text).counts = some inner) :
    alGet context (fit m text).context_totals = some (sumCounts inner) :=
  ((tablesConsistent_fit m text).1 context inner h).1

theorem fit_counts_totals_consistent_witness :
    alGet [("a" : String)] (fit (initModel 2 2) "a b. a b.").context_totals =
      some (sumCounts [("b", 2)]) :=
  fit_counts_totals_consistent (initModel 2 2) "a b. a b." ["a"] [("b", 2)]
    (by decide)

/-- C10 (implicit): after any completed training call every context present
in the transition table has positive stored counts, and the total used by
`_sample_next_word` is nonzero, so the zero-total branch returning the end
marker is unreachable for contexts actually present. -/
theorem fit_sample_total_positive (m : TrigramModel) (text : String)
    (context : Ctx) (inner : InnerCounts)
    (h : alGet context (fit m text).counts = some inner) :
    (∀ p ∈ inner, 1 ≤ p.2) ∧ sampleTotal (fit m text) context inner ≠ 0 := by
  obtain ⟨ht, hne, hpos⟩ := (tablesConsistent_fit m text).1 context inner h
  refine ⟨hpos, ?_⟩
  rw [sampleTotal, ht]
  simp only [Option.getD_some]
  cases inner with
  | nil => exact absurd rfl hne
  | cons p rest =>
    have := hpos p (List.mem_cons_self _ _)
    simp only [sumCounts, List.map_cons, List.sum_cons]
    omega

theorem fit_sample_total_positive_witness :
    (∀ p ∈ [((END_TOKEN : String), (2 : Nat))], 1 ≤ p.2) ∧
      sampleTotal (fit (initModel 2 2) "a b. a b.") ["b"] [(END_TOKEN, 2)] ≠ 0 :=
  fit_sample_total_positive (initModel 2 2) "a b. a b." ["b"] [(END_TOKEN, 2)]
    (by decide)

/-- C6: a model constructed with `n = 2`, `min_count = 2`, trained on
`"a b. a b."`, maps context `("<s>",)` only to `"a"` with count 2, context
`("a",)` only to `"b"` with count 2, and context `("b",)` only to the end
marker with count 2. -/
theorem fit_bigram_scenario :
    mkTrigramModel 2 2 = some (initModel 2 2) ∧
    (fit (initModel 2 2) "a b. a b.").counts =
      [([START_TOKEN], [("a", 2)]), (["a"], [("b", 2)]),
        (["b"], [(END_TOKEN, 2)])] :=
  ⟨by decide, by decide⟩

/-- C3: training on the empty string or a whitespace-only string leaves the
model untrained with empty tables, and a subsequent `generate` call returns
the empty string. -/
theorem fit_whitespace_untrained (m : TrigramModel) (text : String)
    (h : pyStrip text.data = []) :
    (fit m text).trained = false ∧ (fit m text).counts = [] ∧
      (fit m text).context_totals = [] ∧
      ∀ {σ : Type} (step : σ → ℚ × σ) (max_length : Nat) (s : σ),
        (generate step (fit m text) max_length s).1 = "" := by
  have hfit : fit m text = reset_model_state m := by
    rw [fit, fitTrain, h]
    simp
  rw [hfit]
  exact ⟨rfl, rfl, rfl, fun {σ} step max_length s => rfl⟩

theorem fit_whitespace_untrained_witness :
    (fit (initModel 3 2) "  \t  ").trained = false ∧
      (generate stepZero (fit (initModel 3 2) "  \t  ") 50 ()).1 = "" := by
  have h := fit_whitespace_untrained (initModel 3 2) "  \t  " (by decide)
  exact ⟨h.1, h.2.2.2 stepZero 50 ()⟩

/-- C8: training is a full reset, not incremental accumulation: fitting
`t1` then `t2` leaves exactly the state of a freshly constructed model
(same `n` and `min_count`) fitted on `t2` alone. -/
theorem fit_full_reset (m : TrigramModel) (t1 t2 : String) :
    fit (fit m t1) t2 = fit (initModel m.n m.min_count) t2 := by
  show fitTrain (reset_model_state (fit m t1)) (pyStrip t2.data) =
    fitTrain (reset_model_state (initModel m.n m.min_count)) (pyStrip t2.data)
  rw [reset_model_state_congr (fit m t1) (initModel m.n m.min_count)
    (fit_n m t1) (fit_min_count m t1)]

/-- C7: with the shared random source seeded to the same fixed value before
each of two `generate` calls on the same trained model instance (the
instance as the first call left it, with no retraining in between), the
output strings are identical.  In the embedding the shared source is the
explicit pair of a step function and a seed, and `generate` reads but never
writes the model, which `generateWorld` makes explicit. -/
theorem generate_deterministic_reseed {σ : Type} (step : σ → ℚ × σ)
    (m : TrigramModel) (text : String) (max_length : Nat) (seed : σ) :
    (generateWorld step (fit m text, seed) max_length).1 =
      (generateWorld step
        ((generateWorld step (fit m text, seed) max_length).2.1, seed)
        max_length).1 := rfl

/-! ### Vocabulary membership -/

theorem mem_build_vocabulary (min_count : Nat) (sentences : List (List String))
    (tok : String) :
    tok ∈ build_vocabulary min_count sentences ↔
      (tok = START_TOKEN ∨ tok = END_TOKEN ∨ tok = UNK_TOKEN ∨
        if ∀ u ∈ sentences.flatten, sentences.flatten.count u < min_count
        then tok ∈ sentences.flatten
        else tok ∈ sentences.flatten ∧
          min_count ≤ sentences.flatten.count tok) := by
  simp only [build_vocabulary]
  by_cases hall : ∀ u ∈ sentences.flatten,
      sentences.flatten.count u < min_count
  · rw [if_pos hall]
    have hkept : (sentences.flatten.dedup.filter
        (fun t => min_count ≤ sentences.flatten.count t)) = [] := by
      refine List.filter_eq_nil_iff.mpr ?_
      intro t ht
      have := hall t (List.mem_dedup.mp ht)
      simp only [decide_eq_true_eq]
      omega
    rw [hkept]
    simp only [List.isEmpty_nil, if_true, List.mem_append, List.mem_dedup,
      List.mem_cons, List.mem_singleton, List.not_mem_nil, or_false]
    tauto
  · rw [if_neg hall]
    have hne : (sentences.flatten.dedup.filter
        (fun t => min_count ≤ sentences.flatten.count t)) ≠ [] := by
      intro h0
      apply hall
      intro u hu
      have := List.filter_eq_nil_iff.mp h0 u (List.mem_dedup.mpr hu)
      simp only [decide_eq_true_eq] at this
      omega
    rw [if_neg (fun hc => hne (List.isEmpty_iff.mp hc))]
    simp only [List.mem_append, List.mem_filter, List.mem_dedup,
      decide_eq_true_eq, List.mem_cons, List.mem_singleton,
      List.not_mem_nil, or_false]
    tauto

/-- C2: for a corpus whose tokenization is non-empty, the trained
vocabulary contains exactly the tokens occurring at least `min_count`
times plus the three reserved tokens; if no token reaches `min_count`, it
instead contains all observed tokens plus the reserved tokens. -/
theorem fit_vocabulary_exact (m : TrigramModel) (text : String)
    (h : prepare_sentences (String.mk (pyStrip text.data)) ≠ [])
    (tok : String) :
    tok ∈ (fit m text).vocab ↔
      (tok = START_TOKEN ∨ tok = END_TOKEN ∨ tok = UNK_TOKEN ∨
        if ∀ u ∈ (prepare_sentences (String.mk (pyStrip text.data))).flatten,
            (prepare_sentences (String.mk (pyStrip text.data))).flatten.count u
              < m.min_count
        then tok ∈ (prepare_sentences (String.mk (pyStrip text.data))).flatten
        else tok ∈ (prepare_sentences (String.mk (pyStrip text.data))).flatten ∧
          m.min_count ≤
            (prepare_sentences (String.mk (pyStrip text.data))).flatten.count tok) := by
  have hvocab : (fit m text).vocab = build_vocabulary m.min_count
      (prepare_sentences (String.mk (pyStrip text.data))) := by
    rw [fit, fitTrain]
    split
    · rename_i h1
      exfalso
      apply h
      rw [List.isEmpty_iff.mp h1]
      decide
    · split
      · rename_i h2
        exact absurd (List.isEmpty_iff.mp h2) h
      · rfl
  rw [hvocab]
  exact mem_build_vocabulary m.min_count _ tok

theorem fit_vocabulary_exact_witness :
    ("a" ∈ (fit (initModel 3 2) "a a. b.").vocab) ∧
      ¬ ("b" ∈ (fit (initModel 3 2) "a a. b.").vocab) := by
  constructor
  · exact (fit_vocabulary_exact (initModel 3 2) "a a. b." (by decide) "a").mpr
      (by decide)
  · intro hb
    have hiff := (fit_vocabulary_exact (initModel 3 2) "a a. b." (by decide)
      "b").mp hb
    revert hiff
    decide

/-! ### Tokenizer output contains only word characters -/

theorem wordTokensAux_word_chars (cs : List Char) :
    ∀ acc, (∀ a ∈ acc, isWordChar a = true) →
      ∀ w ∈ wordTokensAux cs acc, ∀ ch ∈ w, isWordChar ch = true := by
  induction cs with
  | nil =>
    intro acc hacc w hw ch hch
    rw [wordTokensAux] at hw
    split at hw
    · simp at hw
    · simp only [List.mem_singleton] at hw
      subst hw
      exact hacc ch (List.mem_reverse.mp hch)
  | cons c rest ih =>
    intro acc hacc w hw ch hch
    rw [wordTokensAux] at hw
    split at hw
    · rename_i hc
      refine ih (c :: acc) ?_ w hw ch hch
      intro a ha
      rcases List.mem_cons.mp ha with ha' | ha'
      · rw [ha']; exact hc
      · exact hacc a ha'
    · split at hw
      · exact ih acc hacc w hw ch hch
      · rcases List.mem_cons.mp hw with hw' | hw'
        · subst hw'
          exact hacc ch (List.mem_reverse.mp hch)
        · exact ih [] (by simp) w hw' ch hch

theorem prepare_sentences_tokens_word (text : String) (sentence : List String)
    (hs : sentence ∈ prepare_sentences text) (tok : String)
    (ht : tok ∈ sentence) : ∀ ch ∈ tok.data, isWordChar ch = true := by
  simp only [prepare_sentences, List.mem_filter, List.mem_map] at hs
  obtain ⟨⟨piece, hpiece, hmap⟩, _⟩ := hs
  subst hmap
  simp only [List.mem_map] at ht
  obtain ⟨w, hw, htok⟩ := ht
  subst htok
  exact wordTokensAux_word_chars piece [] (by simp) w hw

theorem prepare_sentences_no_start (text : String) (sentence : List String)
    (hs : sentence ∈ prepare_sentences text) (tok : String)
    (ht : tok ∈ sentence) : tok ≠ START_TOKEN := by
  intro hstart
  have hword := prepare_sentences_tokens_word text sentence hs tok ht
  rw [hstart] at hword
  exact absurd (hword '<' (by decide)) (by decide)

/-! ### Window targets avoid the start marker -/

theorem getD_mem_drop (l : List String) (i : Nat) (hi : i < l.length) :
    l.getD i "" ∈ l.drop i := by
  rw [List.getD_eq_getElem l "" hi]
  rw [List.drop_eq_getElem_cons hi]
  exact List.mem_cons_self _ _

theorem mem_drop_succ_mem_drop (l : List String) (k : Nat) (x : String)
    (h : x ∈ l.drop (k + 1)) : x ∈ l.drop k := by
  have h2 : x ∈ (l.drop k).drop 1 := by
    rw [List.drop_drop]
    exact h
  exact List.mem_of_mem_drop h2

theorem ngramWindows_target_mem_drop (n : Nat) :
    ∀ (ts : List String) (w : Ctx × String), w ∈ ngramWindows n ts →
      w.2 ∈ ts.drop (n - 1) := by
  intro ts
  induction ts with
  | nil =>
    intro w hw
    rw [ngramWindows] at hw
    simp at hw
  | cons t rest ih =>
    intro w hw
    rw [ngramWindows] at hw
    split at hw
    · rename_i hlen
      rcases List.mem_cons.mp hw with hw' | hw'
      · subst hw'
        simp only
        apply getD_mem_drop
        simp only [List.length_cons] at hlen ⊢
        omega
      · have hmem := ih w hw'
        cases hn : n - 1 with
        | zero =>
          rw [hn] at hmem
          simp only [List.drop_zero] at hmem ⊢
          exact List.mem_cons_of_mem _ hmem
        | succ k =>
          rw [hn] at hmem
          rw [List.drop_succ_cons]
          exact mem_drop_succ_mem_drop rest k _ hmem
    · simp at hw

theorem padSentence_window_no_start (n : Nat) (vocab : List String)
    (sentence : List String) (hsent : ∀ t ∈ sentence, t ≠ START_TOKEN)
    (w : Ctx × String)
    (hw : w ∈ ngramWindows n (padSentence n vocab sentence)) :
    w.2 ≠ START_TOKEN := by
  have hmem := ngramWindows_target_mem_drop n _ w hw
  rw [padSentence, List.append_assoc] at hmem
  rw [List.drop_left' (List.length_replicate _ _)] at hmem
  rcases List.mem_append.mp hmem with hmm | hmm
  · simp only [normalize_sentence, List.mem_map] at hmm
    obtain ⟨t, ht, heq⟩ := hmm
    by_cases hv : t ∈ vocab
    · rw [if_pos hv] at heq
      rw [← heq]
      exact hsent t ht
    · rw [if_neg hv] at heq
      rw [← heq]
      decide
  · simp only [List.mem_singleton] at hmm
    rw [hmm]
    decide

/-! ### No start-marker keys in trained inner tables -/

/-- No inner table of the transition table maps the start marker. -/
def noStartKeys (cnts : CountsTable) : Prop :=
  ∀ context inner, alGet context cnts = some inner →
    ∀ p ∈ inner, p.1 ≠ START_TOKEN

theorem noStartKeys_nil : noStartKeys [] := by
  intro context inner h
  simp [alGet] at h

theorem noStartKeys_applyWindow (st : CountsTable × TotalsTable)
    (w : Ctx × String) (hw : w.2 ≠ START_TOKEN) (h : noStartKeys st.1) :
    noStartKeys (applyWindow st w).1 := by
  intro context inner hc
  simp only [applyWindow] at hc
  by_cases hk : context = w.1
  · rw [hk, alGet_bumpCounts_self] at hc
    injection hc with hc
    subst hc
    cases hget : alGet w.1 st.1 with
    | some old =>
      intro p hp
      simp only [Option.getD_some] at hp
      rcases alGet_bumpTok_shape w.2 old p hp with h1 | ⟨q, hq, hq1⟩
      · rw [h1]; exact hw
      · rw [hq1]; exact h w.1 old hget q hq
    | none =>
      intro p hp
      simp only [Option.getD_none] at hp
      rcases alGet_bumpTok_shape w.2 [] p hp with h1 | ⟨q, hq, hq1⟩
      · rw [h1]; exact hw
      · simp at hq
  · rw [alGet_bumpCounts_ne _ _ _ _ hk] at hc
    exact h context inner hc

theorem noStartKeys_foldl_windows (ws : List (Ctx × String)) :
    ∀ st : CountsTable × TotalsTable, (∀ w ∈ ws, w.2 ≠ START_TOKEN) →
      noStartKeys st.1 → noStartKeys (ws.foldl applyWindow st).1 := by
  induction ws with
  | nil => intro st _ h; exact h
  | cons w rest ih =>
    intro st hws h
    exact ih _ (fun v hv => hws v (List.mem_cons_of_mem _ hv))
      (noStartKeys_applyWindow st w (hws w (List.mem_cons_self _ _)) h)

theorem noStartKeys_update_padded (n : Nat) (vocab : List String)
    (sentence : List String) (hsent : ∀ t ∈ sentence, t ≠ START_TOKEN)
    (st : CountsTable × TotalsTable) (h : noStartKeys st.1) :
    noStartKeys (update_counts n (padSentence n vocab sentence) st).1 :=
  noStartKeys_foldl_windows _ st
    (fun w hw => padSentence_window_no_start n vocab sentence hsent w hw) h

theorem noStartKeys_foldl_sentences (n : Nat) (vocab : List String)
    (sentences : List (List String)) :
    ∀ st : CountsTable × TotalsTable,
      (∀ sentence ∈ sentences, ∀ t ∈ sentence, t ≠ START_TOKEN) →
      noStartKeys st.1 →
      noStartKeys ((sentences.foldl
        (fun st sentence => update_counts n (padSentence n vocab sentence) st)
        st)).1 := by
  induction sentences with
  | nil => intro st _ h; exact h
  | cons sentence rest ih =>
    intro st hs h
    exact ih _ (fun s hs' t ht => hs s (List.mem_cons_of_mem _ hs') t ht)
      (noStartKeys_update_padded n vocab sentence
        (hs sentence (List.mem_cons_self _ _)) st h)

theorem noStartKeys_fit (m : TrigramModel) (text : String) :
    noStartKeys (fit m text).counts := by
  rw [fit, fitTrain]
  split
  · exact noStartKeys_nil
  · split
    · exact noStartKeys_nil
    · exact noStartKeys_foldl_sentences _ _ _ _
        (fun sentence hs t ht => prepare_sentences_no_start _ sentence hs t ht)
        noStartKeys_nil

/-! ### Sampling results come from the tables -/

theorem walkCumulative_mem (cc : InnerCounts) :
    ∀ (acc threshold : ℚ), walkCumulative cc acc threshold = END_TOKEN ∨
      ∃ p ∈ cc, walkCumulative cc acc threshold = p.1 := by
  induction cc with
  | nil => intro acc t; exact Or.inl rfl
  | cons p rest ih =>
    intro acc t
    rw [walkCumulative]
    split
    · exact Or.inr ⟨p, List.mem_cons_self _ _, rfl⟩
    · rcases ih (acc + (p.2 : ℚ)) t with h | ⟨q, hq, hq1⟩
      · exact Or.inl h
      · exact Or.inr ⟨q, List.mem_cons_of_mem _ hq, hq1⟩

theorem sampleFromCounts_mem {σ : Type} (step : σ → ℚ × σ) (m : TrigramModel)
    (context : Ctx) (cc : InnerCounts) (s : σ) :
    (sampleFromCounts step m context cc s).1 = END_TOKEN ∨
      ∃ p ∈ cc, (sampleFromCounts step m context cc s).1 = p.1 := by
  rw [sampleFromCounts]
  split
  · exact Or.inl rfl
  · exact walkCumulative_mem cc 0 _

theorem sample_next_word_mem {σ : Type} (step : σ → ℚ × σ)
    (m : TrigramModel) (context : Ctx) (s : σ) :
    (sample_next_word step m context s).1 = END_TOKEN ∨
      ∃ ctx cc p, alGet ctx m.counts = some cc ∧ p ∈ cc ∧
        (sample_next_word step m context s).1 = p.1 := by
  rw [sample_next_word]
  cases h1 : alGet context m.counts with
  | some cc =>
    rcases sampleFromCounts_mem step m context cc s with h | ⟨p, hp, hp1⟩
    · exact Or.inl h
    · exact Or.inr ⟨context, cc, p, h1, hp, hp1⟩
  | none =>
    cases h2 : alGet (startContext m.n) m.counts with
    | some cc =>
      rcases sampleFromCounts_mem step m (startContext m.n) cc s
        with h | ⟨p, hp, hp1⟩
      · exact Or.inl h
      · exact Or.inr ⟨startContext m.n, cc, p, h2, hp, hp1⟩
    | none => exact Or.inl rfl

theorem genLoop_tokens_mem {σ : Type} (step : σ → ℚ × σ) (m : TrigramModel) :
    ∀ (fuel : Nat) (context : Ctx) (s : σ) (w : String),
      w ∈ (genLoop step m context fuel s).1 →
      w ≠ END_TOKEN ∧ ∃ ctx cc p, alGet ctx m.counts = some cc ∧ p ∈ cc ∧
        w = p.1 := by
  intro fuel
  induction fuel with
  | zero =>
    intro context s w hw
    simp [genLoop] at hw
  | succ fuel ih =>
    intro context s w hw
    simp only [genLoop] at hw
    by_cases hend : (sample_next_word step m context s).1 = END_TOKEN
    · rw [if_pos hend] at hw
      simp at hw
    · rw [if_neg hend] at hw
      rcases List.mem_cons.mp hw with hw' | hw'
      · subst hw'
        refine ⟨hend, ?_⟩
        rcases sample_next_word_mem step m context s
          with h | ⟨ctx, cc, p, h1, h2, h3⟩
        · exact absurd h hend
        · exact ⟨ctx, cc, p, h1, h2, h3⟩
      · exact ih _ _ w hw'

/-! ### Degenerate generation -/

theorem genLoop_counts_nil {σ : Type} (step : σ → ℚ × σ) (m : TrigramModel)
    (h : m.counts = []) (context : Ctx) (fuel : Nat) (s : σ) :
    (genLoop step m context fuel s).1 = [] := by
  cases fuel with
  | zero => rfl
  | succ fuel =>
    have hpair : sample_next_word step m context s = (END_TOKEN, s) := by
      rw [sample_next_word, h]
      rfl
    simp [genLoop, hpair]

theorem fit_untrained_counts_nil (m : TrigramModel) (text : String)
    (h : (fit m text).trained = false) : (fit m text).counts = [] := by
  by_cases h1 : (pyStrip text.data).isEmpty
  · rw [fit, fitTrain, if_pos h1]
    rfl
  · by_cases h2 : (prepare_sentences (String.mk (pyStrip text.data))).isEmpty
    · rw [fit, fitTrain, if_neg h1, if_pos h2]
      rfl
    · exfalso
      rw [fit, fitTrain, if_neg h1, if_neg h2] at h
      simp [fitCount] at h

/-! ### Claim theorems: generation -/

/-- C4: for every trained model (any model after `fit`), any `max_length`
and any sequence of random draws, the string `generate` returns is the
space-join of its sampled tokens and none of those tokens is the start
marker or the end marker. -/
theorem generate_no_markers {σ : Type} (step : σ → ℚ × σ) (m : TrigramModel)
    (text : String) (max_length : Nat) (s : σ) :
    (generate step (fit m text) max_length s).1 =
      String.intercalate " "
        (genLoop step (fit m text) (startContext (fit m text).n)
          max_length s).1 ∧
    ∀ w ∈ (genLoop step (fit m text) (startContext (fit m text).n)
        max_length s).1, w ≠ START_TOKEN ∧ w ≠ END_TOKEN := by
  constructor
  · rw [generate]
    split
    · rename_i hcond
      have hcnil : (fit m text).counts = [] := by
        rw [Bool.or_eq_true, Bool.not_eq_true'] at hcond
        rcases hcond with hc | hc
        · exact fit_untrained_counts_nil m text hc
        · exact List.isEmpty_iff.mp hc
      rw [genLoop_counts_nil step _ hcnil]
      rfl
    · rfl
  · intro w hw
    obtain ⟨hne, ctx, cc, p, h1, h2, h3⟩ :=
      genLoop_tokens_mem step (fit m text) max_length _ s w hw
    refine ⟨?_, hne⟩
    rw [h3]
    exact noStartKeys_fit m text ctx cc h1 p h2

theorem generate_no_markers_witness :
    ("a" : String) ≠ START_TOKEN ∧ ("a" : String) ≠ END_TOKEN :=
  (generate_no_markers stepZero (initModel 2 2) "a b. a b." 5 ()).2 "a"
    (by decide)

/-! ### The exhaustion bound of the cumulative walk -/

theorem sumCounts_cons (p : String × Nat) (rest : InnerCounts) :
    sumCounts (p :: rest) = p.2 + sumCounts rest := by
  simp [sumCounts]

theorem walkCumulative_exhaust (cc : InnerCounts) :
    ∀ (acc threshold : ℚ), acc + (sumCounts cc : ℚ) < threshold →
      walkCumulative cc acc threshold = END_TOKEN := by
  induction cc with
  | nil => intro acc t _; rfl
  | cons p rest ih =>
    intro acc t h
    rw [sumCounts_cons] at h
    push_cast at h
    have hnn : (0 : ℚ) ≤ (sumCounts rest : ℚ) := by positivity
    rw [walkCumulative]
    rw [if_neg (by intro hc; linarith)]
    exact ih (acc + (p.2 : ℚ)) t (by linarith)

/-- C5: `_sample_next_word` never errors: an absent context falls back to
the all-start-marker context; when that is also absent it returns the end
marker; a zero total for a present context returns the end marker; and if
the cumulative walk exhausts the distribution without reaching the drawn
threshold it returns the end marker. -/
theorem sample_next_word_fallbacks {σ : Type} (step : σ → ℚ × σ)
    (m : TrigramModel) (context : Ctx) (s : σ) :
    (alGet context m.counts = none →
      sample_next_word step m context s =
        sample_next_word step m (startContext m.n) s) ∧
    (alGet context m.counts = none →
      alGet (startContext m.n) m.counts = none →
      sample_next_word step m context s = (END_TOKEN, s)) ∧
    (∀ cc, alGet context m.counts = some cc →
      sampleTotal m context cc = 0 →
      sample_next_word step m context s = (END_TOKEN, s)) ∧
    (∀ cc, alGet context m.counts = some cc →
      (sumCounts cc : ℚ) < (step s).1 * (sampleTotal m context cc : ℚ) →
      (sample_next_word step m context s).1 = END_TOKEN) := by
  refine ⟨?_, ?_, ?_, ?_⟩
  · intro hnone
    simp only [sample_next_word, hnone]
    cases h2 : alGet (startContext m.n) m.counts with
    | some cc => rfl
    | none => rfl
  · intro h1 h2
    simp only [sample_next_word, h1, h2]
  · intro cc hcc h0
    simp only [sample_next_word, hcc, sampleFromCounts, if_pos h0]
  · intro cc hcc hlt
    simp only [sample_next_word, hcc, sampleFromCounts]
    by_cases h0 : sampleTotal m context cc = 0
    · rw [if_pos h0]
    · rw [if_neg h0]
      exact walkCumulative_exhaust cc 0 _ (by rw [zero_add]; exact hlt)

theorem sample_next_word_fallbacks_witness :
    sample_next_word stepZero (initModel 3 2) ["x", "y"] () =
      (END_TOKEN, ()) :=
  (sample_next_word_fallbacks stepZero (initModel 3 2) ["x", "y"] ()).2.1
    (by decide) (by decide)

/-! ### Bounds for the substring searches -/

theorem findSub_le (pat : List Char) :
    ∀ (cs : List Char) (i : Nat), findSub pat cs = some i → i ≤ cs.length := by
  intro cs
  induction cs with
  | nil =>
    intro i h
    rw [findSub] at h
    split at h
    · injection h with h
      omega
    · exact absurd h (by simp)
  | cons c rest ih =>
    intro i h
    rw [findSub] at h
    split at h
    · injection h with h
      omega
    · cases hrec : findSub pat rest with
      | none =>
        rw [hrec] at h
        simp at h
      | some j =>
        rw [hrec] at h
        simp only [Option.map_some'] at h
        injection h with h
        have := ih j hrec
        simp only [List.length_cons]
        omega

theorem findCharIdx_lt (ch : Char) :
    ∀ (cs : List Char) (i : Nat), findCharIdx ch cs = some i →
      i < cs.length := by
  intro cs
  induction cs with
  | nil =>
    intro i h
    exact absurd h (by simp [findCharIdx])
  | cons c rest ih =>
    intro i h
    rw [findCharIdx] at h
    split at h
    · injection h with h
      simp only [List.length_cons]
      omega
    · cases hrec : findCharIdx ch rest with
      | none =>
        rw [hrec] at h
        simp at h
      | some j =>
        rw [hrec] at h
        simp only [Option.map_some'] at h
        injection h with h
        have := ih j hrec
        simp only [List.length_cons]
        omega

theorem findCharFrom_bounds (ch : Char) (cs : List Char) (start j : Nat)
    (h : findCharFrom ch cs start = some j) : start ≤ j ∧ j < cs.length := by
  rw [findCharFrom] at h
  cases hrec : findCharIdx ch (cs.drop start) with
  | none =>
    rw [hrec] at h
    simp at h
  | some i =>
    rw [hrec] at h
    simp only [Option.map_some'] at h
    injection h with h
    have hlt := findCharIdx_lt ch _ i hrec
    rw [List.length_drop] at hlt
    omega

/-! ### Evaluating Python slices at the indices the stripper produces -/

theorem pySliceIdx_natCast (len e : Nat) (he : e ≤ len) :
    pySliceIdx len (e : Int) = e := by
  rw [pySliceIdx, if_neg (by omega)]
  simp [Nat.min_eq_left he]

theorem pySlice_nonneg (cs : List Char) (a b : Nat) (hb : b ≤ cs.length) :
    pySlice cs (a : Int) (b : Int) = (cs.take b).drop a := by
  rw [pySlice, pySliceIdx, pySliceIdx]
  rw [if_neg (by omega), if_neg (by omega)]
  simp only [Int.toNat_natCast]
  rw [Nat.min_eq_left hb]
  by_cases ha : a ≤ cs.length
  · rw [Nat.min_eq_left ha]
  · rw [Nat.min_eq_right (Nat.le_of_lt (Nat.lt_of_not_le ha))]
    rw [List.drop_eq_nil_of_le, List.drop_eq_nil_of_le]
    · rw [List.length_take]
      omega
    · rw [List.length_take]
      omega

theorem pySlice_neg_one (cs : List Char) (b : Nat) (hb : b ≤ cs.length) :
    pySlice cs (-1) (b : Int) = (cs.take b).drop (cs.length - 1) := by
  rw [pySlice, pySliceIdx, pySliceIdx]
  rw [if_pos (by omega), if_neg (by omega)]
  simp only [Int.toNat_natCast]
  rw [Nat.min_eq_left hb]
  congr 1
  omega

/-- C9, amended: the boilerplate stripper keeps the content delimited by
the start and end Gutenberg flags, the retained region beginning at the
first newline at or after the start flag and running up to the start of
the end flag, stripped of surrounding whitespace; an absent start flag
means it keeps from the beginning, an absent end flag means it keeps
through the end.  Exception forced by the code: when the start flag is
present but no newline occurs at or after it, Python's `find` returns -1
and the function keeps only the slice from the last character (negative
index -1) to the end index. -/
theorem strip_gutenberg_cases (raw : String) :
    (findSub (START_FLAG.data.map Char.toLower) (raw.data.map Char.toLower)
        = none →
      findSub (END_FLAG.data.map Char.toLower) (raw.data.map Char.toLower)
        = none →
      strip_gutenberg_header_footer raw = String.mk (pyStrip raw.data)) ∧
    (findSub (START_FLAG.data.map Char.toLower) (raw.data.map Char.toLower)
        = none →
      ∀ e, findSub (END_FLAG.data.map Char.toLower)
        (raw.data.map Char.toLower) = some e →
      strip_gutenberg_header_footer raw =
        String.mk (pyStrip (raw.data.take e))) ∧
    (∀ i j, findSub (START_FLAG.data.map Char.toLower)
        (raw.data.map Char.toLower) = some i →
      findCharFrom '\n' (raw.data.map Char.toLower) i = some j →
      findSub (END_FLAG.data.map Char.toLower) (raw.data.map Char.toLower)
        = none →
      strip_gutenberg_header_footer raw =
        String.mk (pyStrip (raw.data.drop j))) ∧
    (∀ i j e, findSub (START_FLAG.data.map Char.toLower)
        (raw.data.map Char.toLower) = some i →
      findCharFrom '\n' (raw.data.map Char.toLower) i = some j →
      findSub (END_FLAG.data.map Char.toLower) (raw.data.map Char.toLower)
        = some e →
      strip_gutenberg_header_footer raw =
        String.mk (pyStrip ((raw.data.take e).drop j))) ∧
    (∀ i, findSub (START_FLAG.data.map Char.toLower)
        (raw.data.map Char.toLower) = some i →
      findCharFrom '\n' (raw.data.map Char.toLower) i = none →
      findSub (END_FLAG.data.map Char.toLower) (raw.data.map Char.toLower)
        = none →
      strip_gutenberg_header_footer raw =
        String.mk (pyStrip (raw.data.drop (raw.data.length - 1)))) ∧
    (∀ i e, findSub (START_FLAG.data.map Char.toLower)
        (raw.data.map Char.toLower) = some i →
      findCharFrom '\n' (raw.data.map Char.toLower) i = none →
      findSub (END_FLAG.data.map Char.toLower) (raw.data.map Char.toLower)
        = some e →
      strip_gutenberg_header_footer raw =
        String.mk (pyStrip ((raw.data.take e).drop (raw.data.length - 1)))) := by
  refine ⟨?_, ?_, ?_, ?_, ?_, ?_⟩
  · intro h1 h2
    by_cases hraw : raw = ""
    · subst hraw
      rfl
    · simp only [strip_gutenberg_header_footer, if_neg hraw,
        gutenbergStartIdx, gutenbergEndIdx, h1, h2]
      rw [show (0 : Int) = ((0 : Nat) : Int) from rfl]
      rw [pySlice_nonneg raw.data 0 raw.data.length le_rfl]
      rw [List.take_length, List.drop_zero]
  · intro h1 e h2
    by_cases hraw : raw = ""
    · subst hraw
      have : findSub (END_FLAG.data.map Char.toLower)
          (("" : String).data.map Char.toLower) = none := by decide
      rw [this] at h2
      exact absurd h2 (by simp)
    · have he : e ≤ raw.data.length := by
        have := findSub_le (END_FLAG.data.map Char.toLower)
          (raw.data.map Char.toLower) e h2
        rwa [List.length_map] at this
      simp only [strip_gutenberg_header_footer, if_neg hraw,
        gutenbergStartIdx, gutenbergEndIdx, h1, h2]
      rw [show (0 : Int) = ((0 : Nat) : Int) from rfl]
      rw [pySlice_nonneg raw.data 0 e he]
      rw [List.drop_zero]
  · intro i j h1 hj h2
    by_cases hraw : raw = ""
    · subst hraw
      have : findSub (START_FLAG.data.map Char.toLower)
          (("" : String).data.map Char.toLower) = none := by decide
      rw [this] at h1
      exact absurd h1 (by simp)
    · simp only [strip_gutenberg_header_footer, if_neg hraw,
        gutenbergStartIdx, gutenbergEndIdx, h1, hj, h2]
      rw [pySlice_nonneg raw.data j raw.data.length le_rfl]
      rw [List.take_length]
  · intro i j e h1 hj h2
    by_cases hraw : raw = ""
    · subst hraw
      have : findSub (START_FLAG.data.map Char.toLower)
          (("" : String).data.map Char.toLower) = none := by decide
      rw [this] at h1
      exact absurd h1 (by simp)
    · have he : e ≤ raw.data.length := by
        have := findSub_le (END_FLAG.data.map Char.toLower)
          (raw.data.map Char.toLower) e h2
        rwa [List.length_map] at this
      simp only [strip_gutenberg_header_footer, if_neg hraw,
        gutenbergStartIdx, gutenbergEndIdx, h1, hj, h2]
      rw [pySlice_nonneg raw.data j e he]
  · intro i h1 hj h2
    by_cases hraw : raw = ""
    · subst hraw
      have : findSub (START_FLAG.data.map Char.toLower)
          (("" : String).data.map Char.toLower) = none := by decide
      rw [this] at h1
      exact absurd h1 (by simp)
    · simp only [strip_gutenberg_header_footer, if_neg hraw,
        gutenbergStartIdx, gutenbergEndIdx, h1, hj, h2]
      rw [pySlice_neg_one raw.data raw.data.length le_rfl]
      rw [List.take_length]
  · intro i e h1 hj h2
    by_cases hraw : raw = ""
    · subst hraw
      have : findSub (START_FLAG.data.map Char.toLower)
          (("" : String).data.map Char.toLower) = none := by decide
      rw [this] at h1
      exact absurd h1 (by simp)
    · have he : e ≤ raw.data.length := by
        have := findSub_le (END_FLAG.data.map Char.toLower)
          (raw.data.map Char.toLower) e h2
        rwa [List.length_map] at this
      simp only [strip_gutenberg_header_footer, if_neg hraw,
        gutenbergStartIdx, gutenbergEndIdx, h1, hj, h2]
      rw [pySlice_neg_one raw.data e he]

/-- The claim as originally stated is false: on an input whose start flag
has no newline at or after it and whose end flag is absent, the stripper
keeps only the last character, not the content following the marker
through the end of the text. -/
theorem strip_gutenberg_cases_counterexample :
    findSub (START_FLAG.data.map Char.toLower)
        (("intro *** START OF THE PROJECT GUTENBERG EBOOK title" :
          String).data.map Char.toLower) = some 6 ∧
    findSub (END_FLAG.data.map Char.toLower)
        (("intro *** START OF THE PROJECT GUTENBERG EBOOK title" :
          String).data.map Char.toLower) = none ∧
    strip_gutenberg_header_footer
        "intro *** START OF THE PROJECT GUTENBERG EBOOK title" = "e" ∧
    strip_gutenberg_header_footer
        "intro *** START OF THE PROJECT GUTENBERG EBOOK title" ≠
      String.mk (pyStrip
        (("intro *** START OF THE PROJECT GUTENBERG EBOOK title" :
          String).data.drop (6 + START_FLAG.data.length))) := by
  refine ⟨by decide, by decide, by decide, by decide⟩

theorem strip_gutenberg_cases_witness :
    strip_gutenberg_header_footer
        "x\n*** START OF THE PROJECT GUTENBERG EBOOK A ***\nbody\n*** END OF THE PROJECT GUTENBERG EBOOK" =
      String.mk (pyStrip
        ((("x\n*** START OF THE PROJECT GUTENBERG EBOOK A ***\nbody\n*** END OF THE PROJECT GUTENBERG EBOOK" : String).data.take 54).drop 48)) :=
  (strip_gutenberg_cases _).2.2.2.1 2 48 54 (by decide) (by decide) (by decide)
